import Mathlib

/-!
Verification of the Bloom filter core of the gostl repository
(src/ds/bloomfilter/bloom.go).

The filter code in bloom.go is embedded directly.  Two collaborators of
bloom.go belong to the same repository but are not under src/ — the packed
bit array (package ds/bitmap: New, Set, IsSet, Data, NewFromData) and the
multi-output hash (package algorithm/hash: GenHashInts).  They are modelled
from the specification, as marked on each definition below.

Machine integers: all Go uint64 values are embedded as Nat; the only
operation where wrap-around could matter is the serialization of m and k,
which is modelled by writing the low 8 little-endian bytes (toLEBytes),
exactly what encoding/binary does.  Go runtime panics (modulo by zero,
index out of range, slice bounds out of range) are modelled by Option:
a function returns none exactly when the Go original panics.
-/

namespace GostlBloom

/-- Little-endian byte serialization of a natural number into `w` bytes,
as encoding/binary writes a uint64 when `w = 8` (low byte first). -/
def toLEBytes : Nat → Nat → List Nat
  | _, 0 => []
  | n, w + 1 => n % 256 :: toLEBytes (n / 256) w

/-- Little-endian byte deserialization, as encoding/binary reads a uint64
from 8 bytes (first byte is least significant). -/
def fromLEBytes : List Nat → Nat
  | [] => 0
  | b :: bs => b + 256 * fromLEBytes bs

/-- Modelled from the spec: the Packed Bit Array of package ds/bitmap
(not under src/).  Per spec section 4.1 it is a fixed-length array of bits
stored compactly in fixed-width words; this model uses byte-wide storage
words, `data` being the storage bytes and `size` the total bit capacity.
Bit `i` lives in byte `i / 8` at offset `i % 8`. -/
structure Bitmap where
  data : List Nat
  size : Nat
deriving DecidableEq

/-- Modelled from the spec: bitmap.New — allocates storage for `size` bits,
all initialized to zero; storage length is the number of bits rounded up
to whole storage words. -/
def Bitmap.new (size : Nat) : Bitmap :=
  { data := List.replicate ((size + 7) / 8) 0, size := size }

/-- Modelled from the spec: bitmap.Set — sets bit `pos` to 1.  The spec
leaves an out-of-capacity index to the implementer; this model (like the
repository's bitmap) chooses the total behavior: an index at or beyond the
capacity is ignored. -/
def Bitmap.set (bm : Bitmap) (pos : Nat) : Bitmap :=
  if pos < bm.size then
    { bm with
      data := bm.data.set (pos / 8) (bm.data.getD (pos / 8) 0 ||| 2 ^ (pos % 8)) }
  else bm

/-- Modelled from the spec: bitmap.IsSet — reports whether bit `pos` is 1;
an index at or beyond the capacity reports false (same choice as `set`). -/
def Bitmap.isSet (bm : Bitmap) (pos : Nat) : Bool :=
  decide (pos < bm.size) && Nat.testBit (bm.data.getD (pos / 8) 0) (pos % 8)

/-- Modelled from the spec: bitmap.Data — exports the storage bytes so that
re-import reproduces the identical bit state. -/
def Bitmap.Data (bm : Bitmap) : List Nat :=
  bm.data

/-- Modelled from the spec: bitmap.NewFromData — reconstructs a bit array
from exported bytes.  The caller (bloom.go line 77) passes only the bytes,
so per spec section 4.1 the capacity is implicitly the byte length times 8. -/
def Bitmap.newFromData (bytes : List Nat) : Bitmap :=
  { data := bytes, size := 8 * bytes.length }

/-- Well-formedness of a bit array: the capacity fits in the allocated
storage, and every bit at or beyond the capacity is zero (spec section 3:
bits outside the capacity within the last word are never set). -/
def Bitmap.WF (bm : Bitmap) : Prop :=
  bm.size ≤ 8 * bm.data.length ∧
    ∀ pos, pos < 8 * bm.data.length → bm.size ≤ pos →
      Nat.testBit (bm.data.getD (pos / 8) 0) (pos % 8) = false

instance (bm : Bitmap) : Decidable bm.WF := by
  unfold Bitmap.WF; infer_instance

/-- The UTF-8 bytes of the fixed salt string of bloom.go, "g9hmj2fhgr". -/
def Salt : List Nat :=
  [103, 57, 104, 109, 106, 50, 102, 104, 103, 114]

/-- The BloomFilter struct of bloom.go: bit-array size `m`, hash count `k`,
and the owned bit array `b`.  The locker field configures mutual exclusion
only and plays no part in the sequential semantics. -/
structure BloomFilter where
  m : Nat
  k : Nat
  b : Bitmap
deriving DecidableEq

/-- bloom.go New: builds a filter with `m` bits and `k` hash rounds and a
fresh bit array of `m` bits.  No parameter validation of any kind. -/
def BloomFilter.New (m k : Nat) : BloomFilter :=
  { m := m, k := k, b := Bitmap.new m }

/-- The loop of bloom.go Add, iterating `i` upward with `n` iterations left:
each step evaluates `hashs[i] % m` and sets that bit.  `none` models the Go
panic: index out of range when `i` reaches the hash list length, or modulo
by zero when `m = 0`. -/
def addFrom (m : Nat) (hashs : List Nat) : Bitmap → Nat → Nat → Option Bitmap
  | b, _, 0 => some b
  | b, i, n + 1 =>
    if m = 0 ∨ hashs.length ≤ i then none
    else addFrom m hashs (b.set (hashs.getD i 0 % m)) (i + 1) n

/-- The loop of bloom.go Contains: each step evaluates `hashs[i] % m`
(`none` models the same panics as in `addFrom`), short-circuits to
`some false` on the first unset bit, and yields `some true` when all `n`
remaining rounds pass. -/
def containsFrom (m : Nat) (hashs : List Nat) : Bitmap → Nat → Nat → Option Bool
  | _, _, 0 => some true
  | b, i, n + 1 =>
    if m = 0 ∨ hashs.length ≤ i then none
    else if b.isSet (hashs.getD i 0 % m) then containsFrom m hashs b (i + 1) n
    else some false

/-- bloom.go Add: computes `k` hash values of the salted value via the
multi-output hash `gH` (modelling hash.GenHashInts, which by its spec
contract returns `k` unsigned integers for count `k`), and sets bit
`hashs[i] % m` for each `i < k`. -/
def BloomFilter.Add (gH : List Nat → Nat → List Nat) (bf : BloomFilter)
    (val : List Nat) : Option BloomFilter :=
  (addFrom bf.m (gH (Salt ++ val) bf.k) bf.b 0 bf.k).map fun b2 => { bf with b := b2 }

/-- bloom.go Contains: computes the same `k` hash values and reports true
only if all `k` corresponding bits are set, short-circuiting to false on
the first unset bit. -/
def BloomFilter.Contains (gH : List Nat → Nat → List Nat) (bf : BloomFilter)
    (val : List Nat) : Option Bool :=
  containsFrom bf.m (gH (Salt ++ val) bf.k) bf.b 0 bf.k

/-- bloom.go Data: serializes `m` then `k` as little-endian unsigned 64-bit
integers, followed by the bit array's exported bytes. -/
def BloomFilter.Data (bf : BloomFilter) : List Nat :=
  toLEBytes bf.m 8 ++ toLEBytes bf.k 8 ++ bf.b.Data

/-- bloom.go NewFromData: reads `m` and `k` from the first 16 bytes and
rebuilds the bit array from the remaining bytes (`data[16:]`).  For inputs
shorter than 16 bytes the Go code panics — the errors of binary.Read are
discarded and the slice expression `data[16:]` is out of bounds — which is
modelled by `none`. -/
def NewFromData (data : List Nat) : Option BloomFilter :=
  if data.length < 16 then none
  else
    some
      { m := fromLEBytes (data.take 8),
        k := fromLEBytes ((data.drop 8).take 8),
        b := Bitmap.newFromData (data.drop 16) }

/-- Runs a sequence of values through Add, left to right; `none` models a
panic in any of the Add calls. -/
def addAll (gH : List Nat → Nat → List Nat) (bf : BloomFilter) :
    List (List Nat) → Option BloomFilter
  | [] => some bf
  | v :: rest => (bf.Add gH v).bind fun bf2 => addAll gH bf2 rest

/-- One public operation of the filter surface: Add, Contains or Data. -/
inductive FilterOp where
  | add : List Nat → FilterOp
  | contains : List Nat → FilterOp
  | data : FilterOp
deriving DecidableEq

/-- Runs a sequence of public operations; Contains and Data leave the state
unchanged, Add replaces it, and `none` models a panic along the way. -/
def runOps (gH : List Nat → Nat → List Nat) (bf : BloomFilter) :
    List FilterOp → Option BloomFilter
  | [] => some bf
  | FilterOp.add v :: rest => (bf.Add gH v).bind fun bf2 => runOps gH bf2 rest
  | FilterOp.contains v :: rest => (bf.Contains gH v).bind fun _ => runOps gH bf rest
  | FilterOp.data :: rest => (fun _ : List Nat => runOps gH bf rest) bf.Data

/-- Modelled from the spec: a sample instance of the external multi-output
hash contract of spec section 6 — a function from a byte sequence and a
count `k` to `k` unsigned integers.  Used only to instantiate witnesses;
all theorems are parametric in the hash. -/
def demoHash (bs : List Nat) (k : Nat) : List Nat :=
  (List.range k).map fun i => bs.foldl (fun a c => 31 * a + c + i) (i + 1)

theorem demoHash_length (bs : List Nat) (k : Nat) : (demoHash bs k).length = k := by
  simp [demoHash]

/-! ### List and byte-level lemmas -/

theorem getD_set (l : List Nat) (i j v : Nat) :
    (l.set i v).getD j 0 = if i = j ∧ j < l.length then v else l.getD j 0 := by
  induction l generalizing i j with
  | nil => simp
  | cons a t ih =>
    cases i with
    | zero =>
      cases j with
      | zero => simp
      | succ j => simp
    | succ i =>
      cases j with
      | zero => simp
      | succ j =>
        simp only [List.set, List.getD_cons_succ, ih, List.length_cons]
        split_ifs <;> first | rfl | omega

theorem getD_replicate (n i : Nat) : (List.replicate n 0).getD i 0 = 0 := by
  induction n generalizing i with
  | zero => simp
  | succ n ih => cases i <;> simp [List.replicate, ih]

theorem toLEBytes_length (n w : Nat) : (toLEBytes n w).length = w := by
  induction w generalizing n with
  | zero => rfl
  | succ w ih => simp [toLEBytes, ih]

theorem fromLEBytes_toLEBytes (w n : Nat) :
    fromLEBytes (toLEBytes n w) = n % 256 ^ w := by
  induction w generalizing n with
  | zero => simp [toLEBytes, fromLEBytes, Nat.mod_one]
  | succ w ih =>
    simp only [toLEBytes, fromLEBytes, ih]
    rw [pow_succ', Nat.mod_mul]

/-! ### Bit array lemmas -/

theorem Bitmap.set_size (bm : Bitmap) (p : Nat) : (bm.set p).size = bm.size := by
  unfold Bitmap.set; split <;> rfl

theorem Bitmap.set_data_length (bm : Bitmap) (p : Nat) :
    (bm.set p).data.length = bm.data.length := by
  unfold Bitmap.set; split <;> simp

theorem Bitmap.isSet_set_self (bm : Bitmap) (pos : Nat) (h1 : pos < bm.size)
    (h2 : pos / 8 < bm.data.length) : (bm.set pos).isSet pos = true := by
  unfold Bitmap.set Bitmap.isSet
  rw [if_pos h1]
  simp only [decide_eq_true_eq, Bool.and_eq_true, decide_eq_true_iff]
  refine ⟨by exact h1, ?_⟩
  rw [getD_set, if_pos ⟨rfl, h2⟩, Nat.testBit_lor]
  simp [Nat.testBit_two_pow_self]

theorem Bitmap.isSet_mono_set (bm : Bitmap) (p q : Nat) (h : bm.isSet q = true) :
    (bm.set p).isSet q = true := by
  unfold Bitmap.isSet at h
  simp only [Bool.and_eq_true, decide_eq_true_iff] at h
  unfold Bitmap.set
  by_cases hp : p < bm.size
  · rw [if_pos hp]
    unfold Bitmap.isSet
    simp only [Bool.and_eq_true, decide_eq_true_iff]
    refine ⟨h.1, ?_⟩
    rw [getD_set]
    split
    · rename_i hc
      rw [hc.1, Nat.testBit_lor, h.2]
      simp
    · exact h.2
  · rw [if_neg hp]
    unfold Bitmap.isSet
    simp only [Bool.and_eq_true, decide_eq_true_iff]
    exact h

theorem Bitmap.WF_set (bm : Bitmap) (p : Nat) (h : bm.WF) : (bm.set p).WF := by
  unfold Bitmap.set
  by_cases hp : p < bm.size
  · rw [if_pos hp]
    constructor
    · simpa using h.1
    · intro pos h1 h2
      have h1b : pos < 8 * bm.data.length := by simpa using h1
      have h2b : bm.size ≤ pos := h2
      rw [getD_set]
      split
      · rename_i hc
        rw [Nat.testBit_lor, hc.1]
        have hb1 : Nat.testBit (bm.data.getD (pos / 8) 0) (pos % 8) = false :=
          h.2 pos h1b h2b
        rw [hb1]
        have hne : p % 8 ≠ pos % 8 := by
          have hdp : p / 8 = pos / 8 := hc.1
          omega
        simp [Nat.testBit_two_pow_of_ne hne]
      · exact h.2 pos h1b h2b
  · rw [if_neg hp]
    exact h

theorem Bitmap.WF_new (m : Nat) : (Bitmap.new m).WF := by
  constructor
  · simp [Bitmap.new]
    omega
  · intro pos _ _
    simp [Bitmap.new, getD_replicate]

theorem Bitmap.isSet_newFromData (bm : Bitmap) (h : bm.WF) (pos : Nat) :
    (Bitmap.newFromData bm.data).isSet pos = bm.isSet pos := by
  unfold Bitmap.newFromData Bitmap.isSet
  by_cases h1 : pos < 8 * bm.data.length
  · by_cases h2 : pos < bm.size
    · simp [h1, h2]
    · have hb : Nat.testBit (bm.data.getD (pos / 8) 0) (pos % 8) = false :=
        h.2 pos h1 (Nat.le_of_not_lt h2)
      simp at hb
      simp [h1, h2, hb]
  · have h2 : ¬ pos < bm.size := by
      have := h.1
      omega
    simp [h1, h2]

/-! ### Lemmas about the Add and Contains loops -/

theorem addFrom_mono (m : Nat) (hashs : List Nat) :
    ∀ n b i b2, addFrom m hashs b i n = some b2 →
      b2.size = b.size ∧ b2.data.length = b.data.length ∧
        ∀ q, b.isSet q = true → b2.isSet q = true := by
  intro n
  induction n with
  | zero =>
    intro b i b2 h
    cases h
    exact ⟨rfl, rfl, fun q hq => hq⟩
  | succ n ih =>
    intro b i b2 h
    unfold addFrom at h
    split at h
    · cases h
    · obtain ⟨h1, h2, h3⟩ := ih (b.set (hashs.getD i 0 % m)) (i + 1) b2 h
      refine ⟨?_, ?_, ?_⟩
      · rw [h1, Bitmap.set_size]
      · rw [h2, Bitmap.set_data_length]
      · intro q hq
        exact h3 q (Bitmap.isSet_mono_set b _ q hq)

theorem addFrom_WF (m : Nat) (hashs : List Nat) :
    ∀ n b i b2, addFrom m hashs b i n = some b2 → b.WF → b2.WF := by
  intro n
  induction n with
  | zero =>
    intro b i b2 h hw
    cases h
    exact hw
  | succ n ih =>
    intro b i b2 h hw
    unfold addFrom at h
    split at h
    · cases h
    · exact ih _ (i + 1) b2 h (Bitmap.WF_set b _ hw)

theorem addFrom_isSome (m : Nat) (hashs : List Nat) (hm : m ≠ 0) :
    ∀ n b i, i + n ≤ hashs.length → ∃ b2, addFrom m hashs b i n = some b2 := by
  intro n
  induction n with
  | zero => intro b i _; exact ⟨b, rfl⟩
  | succ n ih =>
    intro b i hle
    unfold addFrom
    rw [if_neg (by omega)]
    exact ih (b.set (hashs.getD i 0 % m)) (i + 1) (by omega)

theorem addFrom_isSet (m : Nat) (hashs : List Nat) (hm : m ≠ 0) :
    ∀ n b i b2, m ≤ b.size → b.size ≤ 8 * b.data.length →
      addFrom m hashs b i n = some b2 →
      ∀ j, i ≤ j → j < i + n → b2.isSet (hashs.getD j 0 % m) = true := by
  intro n
  induction n with
  | zero =>
    intro b i b2 _ _ _ j hj1 hj2
    omega
  | succ n ih =>
    intro b i b2 hms hsl h j hj1 hj2
    unfold addFrom at h
    split at h
    · cases h
    · by_cases hji : j = i
      · subst hji
        have hpos : hashs.getD j 0 % m < b.size :=
          Nat.lt_of_lt_of_le (Nat.mod_lt _ (Nat.pos_of_ne_zero hm)) hms
        have hidx : hashs.getD j 0 % m / 8 < b.data.length := by omega
        have hset : (b.set (hashs.getD j 0 % m)).isSet (hashs.getD j 0 % m) = true :=
          Bitmap.isSet_set_self b _ hpos hidx
        exact (addFrom_mono m hashs n _ (j + 1) b2 h).2.2 _ hset
      · exact ih (b.set (hashs.getD i 0 % m)) (i + 1) b2
          (by rw [Bitmap.set_size]; exact hms)
          (by rw [Bitmap.set_size, Bitmap.set_data_length]; exact hsl)
          h j (by omega) (by omega)

theorem containsFrom_true_of_all (m : Nat) (hashs : List Nat) (hm : m ≠ 0) :
    ∀ n b i, i + n ≤ hashs.length →
      (∀ j, i ≤ j → j < i + n → b.isSet (hashs.getD j 0 % m) = true) →
      containsFrom m hashs b i n = some true := by
  intro n
  induction n with
  | zero => intro b i _ _; rfl
  | succ n ih =>
    intro b i hle hall
    have hguard : ¬ (m = 0 ∨ hashs.length ≤ i) := by
      intro hc
      rcases hc with hc | hc
      · exact hm hc
      · omega
    have hbit : b.isSet (hashs.getD i 0 % m) = true := hall i (Nat.le_refl i) (by omega)
    unfold containsFrom
    rw [if_neg hguard, if_pos hbit]
    exact ih b (i + 1) (by omega) (fun j hj1 hj2 => hall j (by omega) (by omega))

theorem containsFrom_mono (m : Nat) (hashs : List Nat) :
    ∀ n b b2 i, containsFrom m hashs b i n = some true →
      (∀ q, b.isSet q = true → b2.isSet q = true) →
      containsFrom m hashs b2 i n = some true := by
  intro n
  induction n with
  | zero => intro b b2 i _ _; rfl
  | succ n ih =>
    intro b b2 i h hmono
    unfold containsFrom at h ⊢
    split at h
    · cases h
    · rename_i hguard
      rw [if_neg hguard]
      split at h
      · rename_i hbit
        rw [if_pos (hmono _ hbit)]
        exact ih b b2 (i + 1) h hmono
      · cases h

theorem containsFrom_congr (m : Nat) (hashs : List Nat) :
    ∀ n b b2 i, (∀ q, b.isSet q = b2.isSet q) →
      containsFrom m hashs b i n = containsFrom m hashs b2 i n := by
  intro n
  induction n with
  | zero => intro b b2 i _; rfl
  | succ n ih =>
    intro b b2 i h
    unfold containsFrom
    rw [h]
    split
    · rfl
    · split
      · exact ih b b2 (i + 1) h
      · rfl

/-! ### Filter-level lemmas -/

theorem Add_props (gH : List Nat → Nat → List Nat)
    (hlen : ∀ bs n, (gH bs n).length = n) (bf : BloomFilter) (v : List Nat)
    (hm : bf.m ≠ 0) (hms : bf.m ≤ bf.b.size) (hsl : bf.b.size ≤ 8 * bf.b.data.length) :
    ∃ bf2, bf.Add gH v = some bf2 ∧ bf2.m = bf.m ∧ bf2.k = bf.k ∧
      bf2.m ≤ bf2.b.size ∧ bf2.b.size ≤ 8 * bf2.b.data.length ∧
      (∀ q, bf.b.isSet q = true → bf2.b.isSet q = true) ∧
      ∀ j, j < bf.k → bf2.b.isSet ((gH (Salt ++ v) bf.k).getD j 0 % bf.m) = true := by
  obtain ⟨b2, hb2⟩ := addFrom_isSome bf.m (gH (Salt ++ v) bf.k) hm bf.k bf.b 0
    (by rw [hlen]; omega)
  obtain ⟨e1, e2, e3⟩ := addFrom_mono bf.m (gH (Salt ++ v) bf.k) bf.k bf.b 0 b2 hb2
  refine ⟨{ bf with b := b2 }, ?_, rfl, rfl, ?_, ?_, e3, ?_⟩
  · unfold BloomFilter.Add
    rw [hb2]
    rfl
  · rw [e1]
    exact hms
  · rw [e1, e2]
    exact hsl
  · intro j hj
    exact addFrom_isSet bf.m (gH (Salt ++ v) bf.k) hm bf.k bf.b 0 b2 hms hsl hb2 j
      (Nat.zero_le j) (by omega)

theorem Add_mono (gH : List Nat → Nat → List Nat) (bf bf2 : BloomFilter)
    (v : List Nat) (h : bf.Add gH v = some bf2) :
    bf2.m = bf.m ∧ bf2.k = bf.k ∧
      ∀ q, bf.b.isSet q = true → bf2.b.isSet q = true := by
  unfold BloomFilter.Add at h
  cases hAF : addFrom bf.m (gH (Salt ++ v) bf.k) bf.b 0 bf.k with
  | none => rw [hAF] at h; cases h
  | some b2 =>
    rw [hAF] at h
    have he : { bf with b := b2 } = bf2 := by
      simpa using h
    rw [← he]
    exact ⟨rfl, rfl, (addFrom_mono _ _ _ _ _ _ hAF).2.2⟩

theorem addAll_props (gH : List Nat → Nat → List Nat)
    (hlen : ∀ bs n, (gH bs n).length = n) :
    ∀ vals (bf : BloomFilter), bf.m ≠ 0 → bf.m ≤ bf.b.size →
      bf.b.size ≤ 8 * bf.b.data.length →
      ∃ bf2, addAll gH bf vals = some bf2 ∧ bf2.m = bf.m ∧ bf2.k = bf.k ∧
        bf2.m ≤ bf2.b.size ∧ bf2.b.size ≤ 8 * bf2.b.data.length ∧
        ∀ q, bf.b.isSet q = true → bf2.b.isSet q = true := by
  intro vals
  induction vals with
  | nil =>
    intro bf h1 h2 h3
    exact ⟨bf, rfl, rfl, rfl, h2, h3, fun q hq => hq⟩
  | cons v vs ih =>
    intro bf h1 h2 h3
    obtain ⟨bfi, hAdd, em, ek, j1, j2, mono, _⟩ := Add_props gH hlen bf v h1 h2 h3
    obtain ⟨bf2, hAll, em2, ek2, l1, l2, mono2⟩ := ih bfi (by rw [em]; exact h1) j1 j2
    refine ⟨bf2, ?_, by rw [em2, em], by rw [ek2, ek], l1, l2,
      fun q hq => mono2 q (mono q hq)⟩
    simp [addAll, hAdd, hAll]

theorem addAll_append (gH : List Nat → Nat → List Nat) (xs ys : List (List Nat)) :
    ∀ bf, addAll gH bf (xs ++ ys) =
      (addAll gH bf xs).bind fun bf2 => addAll gH bf2 ys := by
  induction xs with
  | nil => intro bf; rfl
  | cons x xs ih =>
    intro bf
    simp only [List.cons_append, addAll, Option.bind_assoc]
    cases bf.Add gH x with
    | none => rfl
    | some bfi => simp [ih]

theorem runOps_props (gH : List Nat → Nat → List Nat) :
    ∀ ops (bf bf2 : BloomFilter), runOps gH bf ops = some bf2 →
      bf2.m = bf.m ∧ bf2.k = bf.k ∧
        ∀ q, bf.b.isSet q = true → bf2.b.isSet q = true := by
  intro ops
  induction ops with
  | nil =>
    intro bf bf2 h
    cases h
    exact ⟨rfl, rfl, fun q hq => hq⟩
  | cons op rest ih =>
    intro bf bf2 h
    cases op with
    | add v =>
      unfold runOps at h
      cases hAdd : bf.Add gH v with
      | none => rw [hAdd] at h; cases h
      | some bfi =>
        rw [hAdd] at h
        rw [Option.some_bind] at h
        obtain ⟨am, ak, amono⟩ := Add_mono gH bf bfi v hAdd
        obtain ⟨rm, rk, rmono⟩ := ih bfi bf2 h
        exact ⟨by rw [rm, am], by rw [rk, ak], fun q hq => rmono q (amono q hq)⟩
    | contains v =>
      unfold runOps at h
      cases hC : bf.Contains gH v with
      | none => rw [hC] at h; cases h
      | some bb =>
        rw [hC] at h
        rw [Option.some_bind] at h
        exact ih bf bf2 h
    | data =>
      unfold runOps at h
      exact ih bf bf2 h

/-! ### Serialization helper lemmas -/

theorem Data_length (bf : BloomFilter) : bf.Data.length = 16 + bf.b.data.length := by
  simp [BloomFilter.Data, Bitmap.Data, toLEBytes_length]
  omega

theorem Data_take8 (bf : BloomFilter) : bf.Data.take 8 = toLEBytes bf.m 8 := by
  have h := List.take_left (toLEBytes bf.m 8) (toLEBytes bf.k 8 ++ bf.b.Data)
  rw [toLEBytes_length] at h
  simpa [BloomFilter.Data, List.append_assoc] using h

theorem Data_drop8 (bf : BloomFilter) :
    bf.Data.drop 8 = toLEBytes bf.k 8 ++ bf.b.data := by
  have h := List.drop_left (toLEBytes bf.m 8) (toLEBytes bf.k 8 ++ bf.b.Data)
  rw [toLEBytes_length] at h
  simpa [BloomFilter.Data, Bitmap.Data, List.append_assoc] using h

theorem Data_mid8 (bf : BloomFilter) : (bf.Data.drop 8).take 8 = toLEBytes bf.k 8 := by
  rw [Data_drop8]
  have h := List.take_left (toLEBytes bf.k 8) bf.b.data
  rw [toLEBytes_length] at h
  exact h

theorem Data_drop16 (bf : BloomFilter) : bf.Data.drop 16 = bf.b.data := by
  have h16 : bf.Data.drop 16 = (bf.Data.drop 8).drop 8 := by
    rw [List.drop_drop]
  rw [h16, Data_drop8]
  have h := List.drop_left (toLEBytes bf.k 8) bf.b.data
  rw [toLEBytes_length] at h
  exact h

/-! ### Claim theorems -/

/-- C1.  No false negatives: for every multi-output hash satisfying the
length contract of hash.GenHashInts, every filter constructed by New with
m at least 1 and k at least 1, and every value v, if Add(v) occurs at any
point of a sequence of Add calls, the Contains(v) that follows the whole
sequence returns true, regardless of the adds before, between or after. -/
theorem addImpliesContains (gH : List Nat → Nat → List Nat)
    (hlen : ∀ bs n, (gH bs n).length = n) (m k : Nat) (hm : 1 ≤ m) (hk : 1 ≤ k)
    (pre rest : List (List Nat)) (v : List Nat) :
    (addAll gH (BloomFilter.New m k) (pre ++ v :: rest)).map
      (fun bf => bf.Contains gH v) = some (some true) := by
  have hm0 : (BloomFilter.New m k).m ≠ 0 := by
    simp only [BloomFilter.New]
    omega
  have h1 : (BloomFilter.New m k).m ≤ (BloomFilter.New m k).b.size := Nat.le_refl m
  have h2 : (BloomFilter.New m k).b.size ≤ 8 * (BloomFilter.New m k).b.data.length := by
    simp only [BloomFilter.New, Bitmap.new, List.length_replicate]
    omega
  obtain ⟨bf1, hbf1, e1m, e1k, i1, i2, _⟩ :=
    addAll_props gH hlen pre (BloomFilter.New m k) hm0 h1 h2
  have hbf1m : bf1.m ≠ 0 := by rw [e1m]; exact hm0
  obtain ⟨bf2, hAdd, e2m, e2k, j1, j2, _, probes⟩ := Add_props gH hlen bf1 v hbf1m i1 i2
  have hbf2m : bf2.m ≠ 0 := by rw [e2m]; exact hbf1m
  obtain ⟨bf3, hbf3, e3m, e3k, _, _, mono3⟩ := addAll_props gH hlen rest bf2 hbf2m j1 j2
  have hrun : addAll gH (BloomFilter.New m k) (pre ++ v :: rest) = some bf3 := by
    rw [addAll_append, hbf1, Option.some_bind]
    unfold addAll
    rw [hAdd, Option.some_bind, hbf3]
  rw [hrun]
  unfold Option.map BloomFilter.Contains
  have hek : bf3.k = bf1.k := by rw [e3k, e2k]
  have hem : bf3.m = bf1.m := by rw [e3m, e2m]
  rw [hek, hem]
  rw [containsFrom_true_of_all bf1.m (gH (Salt ++ v) bf1.k) hbf1m bf1.k bf3.b 0
    (by rw [hlen]; omega) ?_]
  intro j hj0 hjk
  exact mono3 _ (probes j (by omega))

/-- C8.  Monotonicity of membership: once Contains(v) returns true on a
filter, it returns true again after every subsequent sequence of public
operations (Add, Contains, Data) on that filter — no operation unsets a
bit. -/
theorem containsMonotone (gH : List Nat → Nat → List Nat) (bf : BloomFilter)
    (v : List Nat) (hcont : bf.Contains gH v = some true) (ops : List FilterOp)
    (bf2 : BloomFilter) (hrun : runOps gH bf ops = some bf2) :
    bf2.Contains gH v = some true := by
  obtain ⟨hm, hk, hmono⟩ := runOps_props gH ops bf bf2 hrun
  unfold BloomFilter.Contains at hcont ⊢
  rw [hm, hk]
  exact containsFrom_mono bf.m (gH (Salt ++ v) bf.k) bf.k bf.b bf2.b 0 hcont hmono

/-- C2.  Round-trip serialization: a well-formed filter whose m and k fit
in 64 bits is reconstructed by NewFromData from its own Data with the same
m, the same k, and the same Contains answer for every hash and value. -/
theorem roundTrip (bf : BloomFilter) (gH : List Nat → Nat → List Nat)
    (v : List Nat) (hwf : bf.b.WF) (hm : bf.m < 2 ^ 64) (hk : bf.k < 2 ^ 64) :
    (NewFromData bf.Data).map (fun bf2 => (bf2.m, bf2.k, bf2.Contains gH v)) =
      some (bf.m, bf.k, bf.Contains gH v) := by
  have hlen : ¬ bf.Data.length < 16 := by
    rw [Data_length]
    omega
  have e1 : fromLEBytes (bf.Data.take 8) = bf.m := by
    rw [Data_take8, fromLEBytes_toLEBytes]
    have h8 : (256 : Nat) ^ 8 = 2 ^ 64 := by norm_num
    rw [h8]
    exact Nat.mod_eq_of_lt hm
  have e2 : fromLEBytes ((bf.Data.drop 8).take 8) = bf.k := by
    rw [Data_mid8, fromLEBytes_toLEBytes]
    have h8 : (256 : Nat) ^ 8 = 2 ^ 64 := by norm_num
    rw [h8]
    exact Nat.mod_eq_of_lt hk
  have e3 : bf.Data.drop 16 = bf.b.data := Data_drop16 bf
  unfold NewFromData
  rw [if_neg hlen, e1, e2, e3, Option.map_some']
  have ec : BloomFilter.Contains gH ⟨bf.m, bf.k, Bitmap.newFromData bf.b.data⟩ v =
      bf.Contains gH v := by
    unfold BloomFilter.Contains
    exact containsFrom_congr bf.m (gH (Salt ++ v) bf.k) bf.k
      (Bitmap.newFromData bf.b.data) bf.b 0
      (fun q => Bitmap.isSet_newFromData bf.b hwf q)
  rw [ec]

/-- C7.  Export format: Data returns 16 header bytes followed by exactly
the bit array's exported bytes; decoding the first 8 bytes as a
little-endian unsigned 64-bit integer yields m, and decoding the next 8
yields k. -/
theorem exportLayout (bf : BloomFilter) (hm : bf.m < 2 ^ 64) (hk : bf.k < 2 ^ 64) :
    bf.Data.length = 16 + bf.b.data.length ∧
      fromLEBytes (bf.Data.take 8) = bf.m ∧
      fromLEBytes ((bf.Data.drop 8).take 8) = bf.k ∧
      bf.Data.drop 16 = bf.b.Data := by
  have h8 : (256 : Nat) ^ 8 = 2 ^ 64 := by norm_num
  refine ⟨Data_length bf, ?_, ?_, Data_drop16 bf⟩
  · rw [Data_take8, fromLEBytes_toLEBytes, h8]
    exact Nat.mod_eq_of_lt hm
  · rw [Data_mid8, fromLEBytes_toLEBytes, h8]
    exact Nat.mod_eq_of_lt hk

/-- C9.  New(0, k) is accepted (m = 0 is stored), and on the resulting
filter every Add and every Contains runs `hashs[i] % m` with m = 0 — a
modulo by zero, which panics in Go; the panic is modelled by `none`. -/
theorem mZeroPanics (gH : List Nat → Nat → List Nat) (k : Nat) (hk : 1 ≤ k)
    (v : List Nat) :
    (BloomFilter.New 0 k).m = 0 ∧ (BloomFilter.New 0 k).Add gH v = none ∧
      (BloomFilter.New 0 k).Contains gH v = none := by
  obtain ⟨k2, rfl⟩ : ∃ k2, k = k2 + 1 := ⟨k - 1, by omega⟩
  refine ⟨rfl, ?_, ?_⟩
  · unfold BloomFilter.Add
    simp [BloomFilter.New, addFrom]
  · unfold BloomFilter.Contains
    simp [BloomFilter.New, containsFrom]

/-- C10.  New(m, 0) is accepted (k = 0 is stored), and on every filter
whose k is 0, Contains returns true for every value — the all-k-bits check
is vacuous — while Add sets no bits and leaves the filter unchanged. -/
theorem kZeroVacuous (gH : List Nat → Nat → List Nat) (m : Nat) (bf : BloomFilter)
    (hk : bf.k = 0) (v : List Nat) :
    (BloomFilter.New m 0).k = 0 ∧ bf.Contains gH v = some true ∧
      bf.Add gH v = some bf := by
  obtain ⟨bm, bk, bb⟩ := bf
  have hk2 : bk = 0 := hk
  subst hk2
  exact ⟨rfl, rfl, rfl⟩

/-- C3 counterexample: construction does not reject invalid parameters.
New(0, 0) — both the bit count and the hash count zero — is accepted and
returns a filter storing exactly those parameters, rather than failing. -/
theorem newAcceptsZeroParams :
    (BloomFilter.New 0 0).m = 0 ∧ (BloomFilter.New 0 0).k = 0 ∧
      (BloomFilter.New 0 0).b.size = 0 :=
  ⟨rfl, rfl, rfl⟩

/-- C3 amended: New performs no validation at all — every pair of
parameters, including m = 0 and k = 0, is accepted and stored unchanged,
with a bit array of exactly m bits; nothing is rejected or clamped. -/
theorem newNoValidation (m k : Nat) :
    (BloomFilter.New m k).m = m ∧ (BloomFilter.New m k).k = k ∧
      (BloomFilter.New m k).b.size = m :=
  ⟨rfl, rfl, rfl⟩

/-- C4 counterexample: a malformed input of length 16 — the header claims
m = 1024 bits but zero payload bytes follow — is accepted by NewFromData,
which constructs a filter from the partial data instead of failing. -/
theorem newFromDataAcceptsMalformed :
    (NewFromData (toLEBytes 1024 8 ++ toLEBytes 3 8)).map
      (fun bf => (bf.m, bf.k, bf.b.data.length)) = some (1024, 3, 0) := by
  decide

/-- C4 amended: NewFromData never returns a deserialization error — it has
no error result.  It fails only by the Go runtime panic on inputs shorter
than 16 bytes (the slice `data[16:]` is out of bounds; the binary.Read
errors are discarded), modelled by `none`; every input of length at least
16 is accepted unvalidated, even when the payload is inconsistent with the
parsed m. -/
theorem newFromDataNoneIff (data : List Nat) :
    NewFromData data = none ↔ data.length < 16 := by
  unfold NewFromData
  split <;> simp_all

/-- C5 counterexample: even on well-formed data produced by Data(), the
reconstructed bit array's capacity is not the parsed m.  Round-tripping
New(1, 1) yields a filter with m = 1 but a bit array of capacity 8. -/
theorem importCapacityNotM :
    (NewFromData ((BloomFilter.New 1 1).Data)).map
      (fun bf => (bf.m, bf.b.size)) = some (1, 8) := by
  decide

/-- C5 amended: NewFromData hands the bit array only the bytes after the
16-byte header, so the reconstructed capacity is 8 bits per remaining
byte — derived from the length of the remainder, with the parsed m playing
no part. -/
theorem importCapacityFromLength (data : List Nat) (bf : BloomFilter)
    (h : NewFromData data = some bf) :
    bf.b.data = data.drop 16 ∧ bf.b.size = 8 * (data.length - 16) := by
  unfold NewFromData at h
  split at h
  · cases h
  · cases h
    refine ⟨rfl, ?_⟩
    simp [Bitmap.newFromData]

/-! ### Witnesses: the claim theorems applied at concrete inputs -/

/-- Witness for C1: with the sample hash, New(8, 2), adds of 2, 1, 3 in
that order, the final Contains of 1 is true. -/
theorem addImpliesContains_witness :
    (addAll demoHash (BloomFilter.New 8 2) ([[2]] ++ [1] :: [[3]])).map
      (fun bf => bf.Contains demoHash [1]) = some (some true) :=
  addImpliesContains demoHash demoHash_length 8 2 (by decide) (by decide) [[2]] [[3]] [1]

/-- Witness for C8: a filter with every bit set answers true for 5, and
still answers true after a further Add of 7. -/
theorem containsMonotone_witness :
    BloomFilter.Contains demoHash ⟨8, 1, ⟨[255], 8⟩⟩ [5] = some true :=
  containsMonotone demoHash ⟨8, 1, ⟨[255], 8⟩⟩ [5] (by decide) [FilterOp.add [7]]
    ⟨8, 1, ⟨[255], 8⟩⟩ (by decide)

/-- Witness for C2: round-tripping New(10, 2) preserves m, k, and the
Contains answer for the value 3 under the sample hash. -/
theorem roundTrip_witness :
    (NewFromData ((BloomFilter.New 10 2).Data)).map
      (fun bf2 => (bf2.m, bf2.k, bf2.Contains demoHash [3])) =
      some ((BloomFilter.New 10 2).m, (BloomFilter.New 10 2).k,
        (BloomFilter.New 10 2).Contains demoHash [3]) :=
  roundTrip (BloomFilter.New 10 2) demoHash [3] (by decide) (by decide) (by decide)

/-- Witness for C7: the export layout facts at the filter New(5, 3). -/
theorem exportLayout_witness :
    (BloomFilter.New 5 3).Data.length = 16 + (BloomFilter.New 5 3).b.data.length ∧
      fromLEBytes ((BloomFilter.New 5 3).Data.take 8) = (BloomFilter.New 5 3).m ∧
      fromLEBytes (((BloomFilter.New 5 3).Data.drop 8).take 8) = (BloomFilter.New 5 3).k ∧
      (BloomFilter.New 5 3).Data.drop 16 = (BloomFilter.New 5 3).b.Data :=
  exportLayout (BloomFilter.New 5 3) (by decide) (by decide)

/-- Witness for C9: New(0, 1) stores m = 0 and both Add and Contains hit
the modulo-by-zero panic. -/
theorem mZeroPanics_witness :
    (BloomFilter.New 0 1).m = 0 ∧ (BloomFilter.New 0 1).Add demoHash [] = none ∧
      (BloomFilter.New 0 1).Contains demoHash [] = none :=
  mZeroPanics demoHash 1 (by decide) []

/-- Witness for C10: New(7, 0) stores k = 0, Contains of 1 is vacuously
true on it, and Add of 1 leaves it unchanged. -/
theorem kZeroVacuous_witness :
    (BloomFilter.New 7 0).k = 0 ∧
      BloomFilter.Contains demoHash (BloomFilter.New 7 0) [1] = some true ∧
      BloomFilter.Add demoHash (BloomFilter.New 7 0) [1] = some (BloomFilter.New 7 0) :=
  kZeroVacuous demoHash 7 (BloomFilter.New 7 0) (by decide) [1]

/-- Witness for the amended C4: the empty input is shorter than 16 bytes
and makes NewFromData panic (modelled none). -/
theorem newFromDataNoneIff_witness : NewFromData [] = none :=
  (newFromDataNoneIff []).mpr (by decide)

/-- Witness for the amended C5: round-tripping New(1, 1), the rebuilt bit
array keeps the single payload byte and has capacity 8. -/
theorem importCapacityFromLength_witness :
    (⟨1, 1, ⟨[0], 8⟩⟩ : BloomFilter).b.data = ((BloomFilter.New 1 1).Data).drop 16 ∧
      (⟨1, 1, ⟨[0], 8⟩⟩ : BloomFilter).b.size =
        8 * (((BloomFilter.New 1 1).Data).length - 16) :=
  importCapacityFromLength ((BloomFilter.New 1 1).Data) ⟨1, 1, ⟨[0], 8⟩⟩ (by decide)

end GostlBloom
